import Mathlib

/-!
Shallow embedding of the blivec live-chat client core (api.ts: the HTTP
resolver getRoomPlayInfo, and the Connection class: framing, decoding,
encoding, host rotation, heartbeat and close timer logic).

Buffers are modelled as List Nat, one entry per byte; reads apply a mod 256
so that an arbitrary list denotes the same bytes a Buffer would hold.
Loops of the source that may fail to terminate are modelled with explicit
fuel, returning none when the fuel runs out, so that genuine
non-termination of the source shows up as none for every fuel value.
-/

namespace Blivec

/-- Byte at index i of a buffer, 0 beyond the end (reads in the source are
only performed at guarded offsets). -/
def byteAt (b : List Nat) (i : Nat) : Nat := b.getD i 0 % 256

/-- Buffer.readUInt32BE(i): big-endian unsigned 32-bit read. -/
def readU32 (b : List Nat) (i : Nat) : Nat :=
  ((byteAt b i * 256 + byteAt b (i + 1)) * 256 + byteAt b (i + 2)) * 256 + byteAt b (i + 3)

/-- Buffer.readInt16BE(i): big-endian signed 16-bit read. -/
def readI16 (b : List Nat) (i : Nat) : Int :=
  let u := byteAt b i * 256 + byteAt b (i + 1)
  if u < 32768 then (u : Int) else (u : Int) - 65536

/-- Buffer.readInt32BE(i): big-endian signed 32-bit read. -/
def readI32 (b : List Nat) (i : Nat) : Int :=
  let u := readU32 b i
  if u < 2147483648 then (u : Int) else (u : Int) - 4294967296

/-- Buffer.writeInt32BE for a non-negative value: the four big-endian bytes. -/
def write32BE (v : Nat) : List Nat :=
  [v / 16777216 % 256, v / 65536 % 256, v / 256 % 256, v % 256]

/-- A byte sequence that is one complete frame for the framer in _on_data:
it is at least 4 bytes long and its leading u32 length field equals its
actual length. -/
def FrameBytes (f : List Nat) : Prop :=
  4 ≤ f.length ∧ readU32 f 0 = f.length

instance (f : List Nat) : Decidable (FrameBytes f) :=
  inferInstanceAs (Decidable (_ ∧ _))

/-- A byte sequence on which the extraction loop of _on_data stops and
waits for more data: shorter than 4 bytes, or shorter than its declared
u32 length. -/
def Incomplete (b : List Nat) : Prop :=
  b.length < 4 ∨ b.length < readU32 b 0

instance (b : List Nat) : Decidable (Incomplete b) :=
  inferInstanceAs (Decidable (_ ∨ _))

/-- The while loop of Connection._on_data, with fuel. Each iteration with
at least 4 buffered bytes reads the u32 length; if the buffer is shorter
it stops, otherwise it slices that many bytes off as one frame and
continues on the rest. Returns the extracted frames in order and the
remaining accumulator; none means the fuel ran out, which models the
source loop failing to make progress (a zero length field). -/
def extractLoop : Nat → List Nat → Option (List (List Nat) × List Nat)
  | 0, _ => none
  | fuel + 1, b =>
    if 4 ≤ b.length then
      if b.length < readU32 b 0 then some ([], b)
      else
        match extractLoop fuel (b.drop (readU32 b 0)) with
        | some (fs, rest) => some (b.take (readU32 b 0) :: fs, rest)
        | none => none
    else some ([], b)

/-- Connection._on_data: append the chunk to the accumulator and run the
extraction loop. The fuel length+1 is enough for every terminating run,
since a terminating iteration consumes at least one byte. -/
def on_data (acc chunk : List Nat) : Option (List (List Nat) × List Nat) :=
  extractLoop ((acc ++ chunk).length + 1) (acc ++ chunk)

/-- Deliver a list of chunks to _on_data one at a time, collecting all
extracted frames in order and the final accumulator. -/
def feedChunks (acc : List Nat) : List (List Nat) → Option (List (List Nat) × List Nat)
  | [] => some ([], acc)
  | c :: cs =>
    match on_data acc c with
    | none => none
    | some (fs, acc1) =>
      match feedChunks acc1 cs with
      | none => none
      | some (fs2, acc2) => some (fs ++ fs2, acc2)

/-- The extraction loop of _on_data terminates on buffer b (for some fuel,
equivalently for all large enough fuel). -/
def ExtractTerminates (b : List Nat) : Prop :=
  ∃ fuel, (extractLoop fuel b).isSome

/-- Frame type tags, mirroring the TYPE union of the source. -/
inductive TYPE
  | heartbeat
  | message
  | welcome
  | unknown
  | join
deriving DecidableEq, Repr

/-- op_to_type lookup with the fallback to unknown used at every call
site (op_to_type[op] plus the explicit unknown default). -/
def op_to_type (op : Int) : TYPE :=
  if op = 3 then .heartbeat
  else if op = 5 then .message
  else if op = 8 then .welcome
  else .unknown

/-- type_to_op lookup with the fallback to 0 used at the call site
(type_to_op[type] with the or-zero default). -/
def type_to_op : TYPE → Nat
  | .heartbeat => 2
  | .join => 7
  | _ => 0

/-- Connection._encode: a 16-byte header (total length, 0x10_0001,
operation code, 1, each written as a big-endian 32-bit value) followed by
the body bytes. -/
def encode_frame (t : TYPE) (body : List Nat) : List Nat :=
  write32BE (16 + body.length) ++ write32BE 1048577 ++
    write32BE (type_to_op t) ++ write32BE 1 ++ body

/-- Leaf payload of a decoded frame: parsed JSON for protocol 0 (kept
abstract as the value returned by the parse oracle), the u32 popularity
number for protocol 1 with a 4-byte body, and undefined otherwise. -/
inductive LeafData
  | json (v : List Nat)
  | num (n : Nat)
  | undef
deriving DecidableEq, Repr

/-- One leaf result of Connection._decode2 for a non-container protocol:
the record fields protocol, type and data it returns. -/
structure Leaf where
  protocol : Int
  type : TYPE
  data : LeafData
deriving DecidableEq, Repr

/-- Result of Connection._decode2: either a leaf record, or, for the
container protocols 2 and 3, the flattened leaves of the recursively
decoded decompressed body (the data field that _decode then splices in). -/
inductive D2Result
  | leaf (l : Leaf)
  | container (protocol : Int) (type : TYPE) (leaves : List Leaf)
deriving DecidableEq, Repr

/-- The flatMap step of Connection._decode: a container result contributes
its decoded leaves, any other result contributes itself. -/
def flattenD2 : D2Result → List Leaf
  | .leaf l => [l]
  | .container _ _ ls => ls

/-- Environment oracles for the effectful primitives _decode2 uses:
zlib inflate, brotli decompress, and JSON.parse; none models a rejected
promise or a thrown parse error. The parsed JSON value is kept abstract
as a byte list, only its identity matters to the claims. -/
structure Oracles where
  inflate : List Nat → Option (List Nat)
  brotli : List Nat → Option (List Nat)
  parse : List Nat → Option (List Nat)

mutual

/-- Connection._decode2 with fuel: read protocol at offset 6 and the
operation at offset 8 (reads past the end throw in Node, modelled as
none), take the body from offset 16, then dispatch exactly as the source
if-chain does: protocol 0 parses JSON, protocol 1 with a 4-byte body reads
a u32, protocols 2 and 3 decompress and recursively decode, anything else
leaves data undefined. -/
def decode2 (oz : Oracles) : Nat → List Nat → Option D2Result
  | 0, _ => none
  | fuel + 1, b =>
    if b.length < 12 then none
    else if readI16 b 6 = 0 then
      match oz.parse (b.drop 16) with
      | none => none
      | some v => some (.leaf ⟨readI16 b 6, op_to_type (readI32 b 8), .json v⟩)
    else if readI16 b 6 = 1 ∧ (b.drop 16).length = 4 then
      some (.leaf ⟨readI16 b 6, op_to_type (readI32 b 8), .num (readU32 (b.drop 16) 0)⟩)
    else if readI16 b 6 = 2 then
      match oz.inflate (b.drop 16) with
      | none => none
      | some dec =>
        match decodeLoop oz fuel dec with
        | none => none
        | some rs => some (.container (readI16 b 6) (op_to_type (readI32 b 8)) (rs.flatMap flattenD2))
    else if readI16 b 6 = 3 then
      match oz.brotli (b.drop 16) with
      | none => none
      | some dec =>
        match decodeLoop oz fuel dec with
        | none => none
        | some rs => some (.container (readI16 b 6) (op_to_type (readI32 b 8)) (rs.flatMap flattenD2))
    else some (.leaf ⟨readI16 b 6, op_to_type (readI32 b 8), .undef⟩)

/-- The scanning for-loop of Connection._decode with fuel: at each
position read the u32 size (a read past the end throws, modelled as
none), decode the slice of that size, and advance by the size. A zero
size never advances, so the fuel runs out, modelling the non-terminating
source loop as none. -/
def decodeLoop (oz : Oracles) : Nat → List Nat → Option (List D2Result)
  | 0, _ => none
  | fuel + 1, rem =>
    if rem.length = 0 then some []
    else if rem.length < 4 then none
    else
      match decode2 oz fuel (rem.take (readU32 rem 0)) with
      | none => none
      | some r =>
        match decodeLoop oz fuel (rem.drop (readU32 rem 0)) with
        | none => none
        | some rs => some (r :: rs)

end

/-- Connection._decode with fuel: run the scan loop and splice container
results flat, as the final flatMap does. -/
def decode_frames (oz : Oracles) (fuel : Nat) (b : List Nat) : Option (List Leaf) :=
  match decodeLoop oz fuel b with
  | none => none
  | some rs => some (rs.flatMap flattenD2)

/-- A complete sub-frame inside a container body that _decode2 decodes to
a leaf: correct length field, full 16-byte header present, a non-container
protocol, and a body that JSON.parse accepts when the protocol is 0. -/
def SubFrameWF (oz : Oracles) (f : List Nat) : Prop :=
  16 ≤ f.length ∧ readU32 f 0 = f.length ∧
    readI16 f 6 ≠ 2 ∧ readI16 f 6 ≠ 3 ∧
    (readI16 f 6 = 0 → (oz.parse (f.drop 16)).isSome)

instance (oz : Oracles) (f : List Nat) : Decidable (SubFrameWF oz f) :=
  inferInstanceAs (Decidable (_ ∧ _))

/-- The leaf record _decode2 produces for a well-formed non-container
sub-frame. -/
def leafOf (oz : Oracles) (f : List Nat) : Leaf :=
  ⟨readI16 f 6, op_to_type (readI32 f 8),
    if readI16 f 6 = 0 then .json ((oz.parse (f.drop 16)).getD [])
    else if readI16 f 6 = 1 ∧ (f.drop 16).length = 4 then .num (readU32 (f.drop 16) 0)
    else .undef⟩

/-- Host selection of Connection.connect: use host_list[_connect_index],
then advance the index by one modulo the list length. -/
def connect_pick (host_len idx : Nat) : Nat × Nat :=
  (idx, (idx + 1) % host_len)

/-- Index sequence across k consecutive connect attempts against a fixed
host list of length H, starting from index idx. -/
def connect_indices (idx H : Nat) : Nat → List Nat
  | 0 => []
  | k + 1 => idx :: connect_indices ((idx + 1) % H) H k

/-- Reconnect run across a sequence of freshly fetched host list lengths:
for each fetched length H the pair (index used for the lookup, H), the
index then advancing by one modulo that H. -/
def reconnect_runs (idx : Nat) : List Nat → List (Nat × Nat)
  | [] => []
  | H :: Hs => (idx, H) :: reconnect_runs ((idx + 1) % H) Hs

/-- A concrete protocol-0 sub-frame: length 17, header length 16,
protocol 0, operation 5, body the single byte 42. -/
def sub_json : List Nat := [0, 0, 0, 17, 0, 16, 0, 0, 0, 0, 0, 5, 0, 0, 0, 1, 42]

/-- A concrete protocol-1 sub-frame: length 20, header length 16,
protocol 1, operation 3, body the 4 bytes of the u32 value 7. -/
def sub_num : List Nat := [0, 0, 0, 20, 0, 16, 0, 1, 0, 0, 0, 3, 0, 0, 0, 1, 0, 0, 0, 7]

/-- A concrete protocol-2 container frame whose compressed body is the
two bytes 9 9. -/
def cont_frame : List Nat := [0, 0, 0, 18, 0, 16, 0, 2, 0, 0, 0, 5, 0, 0, 0, 1, 9, 9]

/-- A concrete oracle assignment: inflate maps the bytes 9 9 to the
concatenation of the two sub-frames above, brotli always fails, and
JSON.parse is the identity embedding. -/
def oz_demo : Oracles :=
  ⟨fun b => if b = [9, 9] then some (sub_json ++ sub_num) else none,
   fun _ => none, fun b => some b⟩

/-- The room_init fields getRoomPlayInfo destructures. -/
structure RoomInit where
  uid : Nat
  room_id : Nat
  live_status : Nat
  is_locked : Bool
  encrypted : Bool
deriving DecidableEq, Repr

/-- Distinct failure conditions thrown by getRoomPlayInfo before any
play-info request. -/
inductive RoomError
  | locked
  | encrypted
  | offline
deriving DecidableEq, Repr

/-- The guard sequence at the top of getRoomPlayInfo: locked, then
encrypted, then live_status different from 1, each with its own error. -/
def room_check (r : RoomInit) : Option RoomError :=
  if r.is_locked then some .locked
  else if r.encrypted then some .encrypted
  else if r.live_status ≠ 1 then some .offline
  else none

/-- The while loop over queue_of_qn in getRoomPlayInfo, with fuel: shift a
tier off the queue, skip it if visited, otherwise mark it visited, issue
the play-info request for it (recorded in the returned trace) and push
every accept_qn tier the response declares. adj abstracts the flattened
accept_qn lists of the response for a tier. Returns the request trace and
whether the queue was exhausted within the fuel. -/
def bfs_trace (adj : Nat → List Nat) : Nat → Finset Nat → List Nat → List Nat × Bool
  | _, _, [] => ([], true)
  | 0, _, _ :: _ => ([], false)
  | fuel + 1, visited, qn :: rest =>
    if qn ∈ visited then bfs_trace adj fuel visited rest
    else
      let r := bfs_trace adj fuel (insert qn visited) (rest ++ adj qn)
      (qn :: r.1, r.2)

/-- getRoomPlayInfo reduced to its control flow: the guard sequence, then
the quality traversal seeded with queue [1] and an empty visited set.
Returns the error (if any) and the trace of play-info requests issued. -/
def getRoomPlayInfo_model (r : RoomInit) (adj : Nat → List Nat) (fuel : Nat) :
    Option RoomError × List Nat :=
  match room_check r with
  | some e => (some e, [])
  | none => (none, (bfs_trace adj fuel ∅ [1]).1)

/-! ### Connection timer state machine

The Connection class mixes socket callbacks with two stored timer handles
(timer_reconnect, timer_heartbeat) and with anonymous setTimeout calls in
_on_close. The machine below models exactly that: a virtual clock, a list
of pending timeouts with fresh numeric ids (Node ids are fresh;
clearTimeout removes by id and is a no-op on a stale id), the closed and
live flags, and counters for the externally observable events. -/

/-- Callbacks that the source ever passes to setTimeout (noop timers of
the field initializers are irrelevant and omitted). -/
inductive CB
  | reconnect_cb
  | on_close_cb
  | heartbeat_cb
deriving DecidableEq, Repr

/-- One pending setTimeout registration. -/
structure Timer where
  id : Nat
  deadline : Nat
  cb : CB
deriving DecidableEq, Repr

/-- Timer-relevant state of a Connection plus counters for the observable
events (quit, message, error, init) and for reconnect invocations and
live-to-reconnecting transitions. -/
structure Conn where
  now : Nat
  nextId : Nat
  pending : List Timer
  closed : Bool
  live : Bool
  socket : Bool
  timer_reconnect : Nat
  timer_heartbeat : Nat
  quits : Nat
  msgs : Nat
  errs : Nat
  inits : Nat
  reconnects : Nat
  trans : Nat
deriving DecidableEq, Repr

/-- clearTimeout on a handle: drop every pending timer with that id. -/
def clearT (s : Conn) (h : Nat) : Conn :=
  { s with pending := s.pending.filter (fun t => t.id ≠ h) }

/-- setTimeout: register a fresh timer due delay milliseconds from now and
return its id. -/
def setT (s : Conn) (cb : CB) (delay : Nat) : Conn × Nat :=
  ({ s with pending := s.pending ++ [⟨s.nextId, s.now + delay, cb⟩],
            nextId := s.nextId + 1 }, s.nextId)

/-- Connection.heartbeat: send the heartbeat frame (no modelled effect),
clear the stored reconnect watchdog and rearm it with _on_close due
CONNECT_TIMEOUT = 15000 ms later. -/
def heartbeat_m (s : Conn) : Conn :=
  let s1 := clearT s s.timer_reconnect
  let p := setT s1 .on_close_cb 15000
  { p.1 with timer_reconnect := p.2 }

/-- Connection._on_close: unless closed, schedule an anonymous reconnect
100 ms later; its id is not stored anywhere. -/
def on_close_m (s : Conn) : Conn :=
  if s.closed then s else (setT s .reconnect_cb 100).1

/-- Connection.reconnect (connect inlined, atomically): clear the stored
watchdog, tear the socket down, count the invocation and the
live-to-reconnecting transition; then either the connect succeeds (init
event, fresh socket, watchdog rearmed with reconnect due CONNECT_TIMEOUT
later) or it fails and _on_close runs. -/
def reconnect_m (s : Conn) (ok : Bool) : Conn :=
  let s1 := clearT s s.timer_reconnect
  let s1 := { s1 with reconnects := s1.reconnects + 1,
                      trans := s1.trans + (if s.live then 1 else 0),
                      live := false, socket := false }
  if ok then
    let s2 := { s1 with inits := s1.inits + 1, socket := true }
    let p := setT s2 .reconnect_cb 15000
    { p.1 with timer_reconnect := p.2 }
  else on_close_m s1

/-- One decoded record handled by the loop body of _on_decoded: welcome
starts the heartbeat cycle and marks the session live, a heartbeat reply
rearms the heartbeat timer HEARTBEAT_INTERVAL = 10000 ms later, a message
is forwarded to the caller, anything else is dropped. -/
def on_decoded_step (s : Conn) : TYPE → Conn
  | .welcome => heartbeat_m { s with live := true }
  | .heartbeat =>
    let s1 := clearT s s.timer_heartbeat
    let p := setT s1 .heartbeat_cb 10000
    { p.1 with timer_heartbeat := p.2 }
  | .message => { s with msgs := s.msgs + 1 }
  | _ => s

/-- Connection._on_decoded: return immediately when closed, otherwise
handle each decoded record in order. -/
def on_decoded_m (s : Conn) (rs : List TYPE) : Conn :=
  if s.closed then s else rs.foldl on_decoded_step s

/-- Connection.close: set the closed flag, clear both stored timers, emit
quit, and tear the socket down. Note the source has no guard against a
repeated call. -/
def close_m (s : Conn) : Conn :=
  let s1 := clearT (clearT s s.timer_heartbeat) s.timer_reconnect
  { s1 with closed := true, quits := s1.quits + 1, socket := false }

/-- Connection._on_error: report the error to the caller (even when
closed; the source has no guard) and drop the socket. -/
def on_error_m (s : Conn) : Conn :=
  { s with errs := s.errs + 1, socket := false }

/-- Dispatch a fired timer to its callback. The ok flag is the
environment answer used when a reconnect attempt runs. -/
def runCB (s : Conn) : CB → Bool → Conn
  | .reconnect_cb, ok => reconnect_m s ok
  | .on_close_cb, _ => on_close_m s
  | .heartbeat_cb, _ => heartbeat_m s

/-- A pending timer is next in line: no other pending timer has an
earlier deadline, ties going to the smaller (older) id, matching the
event loop firing order. -/
def isMin (s : Conn) (t : Timer) : Bool :=
  s.pending.all fun u =>
    decide (t.deadline < u.deadline ∨ (t.deadline = u.deadline ∧ t.id ≤ u.id))

/-- External stimuli of the machine: a timer firing (with the connect
outcome used if its callback is reconnect), a batch of decoded frames
arriving, the caller closing, a socket error, a socket close. -/
inductive Act
  | fire (id : Nat) (ok : Bool)
  | recv (rs : List TYPE)
  | callClose
  | sockErr
  | sockClose
deriving DecidableEq, Repr

/-- One step of the machine. A fire of an id that is not pending or not
next in line is a stutter, so runs quantify over arbitrary act lists while
only realizable timer firings take effect. Firing advances the clock to
the deadline, removes the timer, and runs its callback. -/
def step (s : Conn) : Act → Conn
  | .fire id ok =>
    match s.pending.find? (fun t => t.id = id) with
    | none => s
    | some t =>
      if isMin s t then
        runCB { s with pending := s.pending.filter (fun u => u.id ≠ id),
                       now := t.deadline } t.cb ok
      else s
  | .recv rs => on_decoded_m s rs
  | .callClose => close_m s
  | .sockErr => on_error_m s
  | .sockClose => on_close_m s

/-- Run a list of acts. -/
def run (s : Conn) (acts : List Act) : Conn :=
  acts.foldl step s

/-- Firing order between two timers: strictly earlier deadline, or equal
deadline and strictly older id. -/
def prio_lt (a b : Timer) : Prop :=
  a.deadline < b.deadline ∨ (a.deadline = b.deadline ∧ a.id < b.id)

instance (a b : Timer) : Decidable (prio_lt a b) :=
  inferInstanceAs (Decidable (_ ∨ _))

/-- Number of pending timers that can lead to a reconnect when they fire:
every pending timer whose callback is not the heartbeat (the stored
on_close watchdog, the watchdog rearmed by reconnect, and the anonymous
reconnect of _on_close). -/
def wcount (s : Conn) : Nat :=
  s.pending.countP fun t => t.cb ≠ CB.heartbeat_cb

/-- Acts that can occur in a window in which no welcome and no heartbeat
reply is decoded, the caller does not close, and the socket stays quiet:
timer firings and decoded batches of messages or ignored records. -/
def restricted : Act → Prop
  | .fire _ _ => True
  | .recv rs => ∀ x ∈ rs, x = TYPE.message ∨ x = TYPE.unknown ∨ x = TYPE.join
  | .callClose => False
  | .sockErr => False
  | .sockClose => False

instance : (a : Act) → Decidable (restricted a)
  | .fire _ _ => isTrue trivial
  | .recv rs =>
    inferInstanceAs (Decidable (∀ x ∈ rs, x = TYPE.message ∨ x = TYPE.unknown ∨ x = TYPE.join))
  | .callClose => isFalse id
  | .sockErr => isFalse id
  | .sockClose => isFalse id

/-- 1 when the session is live, 0 when it is reconnecting or closed. -/
def liveBit (s : Conn) : Nat := if s.live then 1 else 0

/-- State invariant of the timer machinery inside a no-reply window:
the session is open, pending ids are distinct and below the id source,
the two stored handles are distinct, a pending heartbeat timer is the
stored one, at most one reconnect-inducing timer is pending, a pending
heartbeat timer fires before any reconnect-inducing timer, and a pending
reconnect-inducing timer is the stored watchdog unless no heartbeat timer
is pending (the anonymous reconnect of _on_close). -/
def INV (s : Conn) : Prop :=
  s.closed = false ∧
  s.pending.Pairwise (fun a b => a.id ≠ b.id) ∧
  (∀ t ∈ s.pending, t.id < s.nextId) ∧
  s.timer_reconnect ≠ s.timer_heartbeat ∧
  s.timer_reconnect < s.nextId ∧
  s.timer_heartbeat < s.nextId ∧
  (∀ t ∈ s.pending, t.cb = CB.heartbeat_cb → t.id = s.timer_heartbeat) ∧
  wcount s ≤ 1 ∧
  (∀ w ∈ s.pending, w.cb ≠ CB.heartbeat_cb →
    ∀ h ∈ s.pending, h.cb = CB.heartbeat_cb → prio_lt h w) ∧
  (∀ w ∈ s.pending, w.cb ≠ CB.heartbeat_cb →
    (w.id = s.timer_reconnect ∨ ∀ h ∈ s.pending, h.cb ≠ CB.heartbeat_cb))

instance (s : Conn) : Decidable (INV s) :=
  inferInstanceAs (Decidable (_ ∧ _))

/-- A session state just after a heartbeat send (the welcome was decoded
at time 0, the heartbeat went out, the watchdog with id 2 is armed for
15000 ms, no heartbeat timer is pending because no reply has arrived). -/
def s0 : Conn :=
  { now := 0, nextId := 3, pending := [⟨2, 15000, CB.on_close_cb⟩],
    closed := false, live := true, socket := true,
    timer_reconnect := 2, timer_heartbeat := 1,
    quits := 0, msgs := 0, errs := 0, inits := 0, reconnects := 0, trans := 0 }

/-! ### Theorems -/

lemma connect_indices_eq (H : Nat) (hH : 0 < H) :
    ∀ (k i : Nat), i < H →
      connect_indices i H k = (List.range k).map (fun j => (i + j) % H) := by
  intro k
  induction k with
  | zero => intro i _; rfl
  | succ k ih =>
    intro i hi
    have h1 : connect_indices i H (k + 1) = i :: connect_indices ((i + 1) % H) H k := rfl
    rw [h1, ih ((i + 1) % H) (Nat.mod_lt _ hH), List.range_succ_eq_map, List.map_cons,
      List.map_map]
    refine congrArg₂ List.cons ?_ ?_
    · simp [Nat.mod_eq_of_lt hi]
    · refine congrArg (fun g => List.map g (List.range k)) (funext fun j => ?_)
      show ((i + 1) % H + j) % H = (i + Nat.succ j) % H
      rw [Nat.mod_add_mod]
      congr 1
      omega

/-- C8: across k consecutive (re)connect attempts with a host candidate
list of fixed length H, starting from index i < H, the indices used by
connect are i, (i+1) mod H, (i+2) mod H, and so on: each attempt reads
host_list[_connect_index] and advances the index by one modulo H. -/
theorem connect_host_rotation (i H k : Nat) (hH : 0 < H) (hi : i < H) :
    connect_indices i H k = (List.range k).map (fun j => (i + j) % H) :=
  connect_indices_eq H hH k i hi

/-- Witness for connect_host_rotation at H = 3, i = 1, k = 5. -/
theorem connect_host_rotation_witness :
    0 < 3 ∧ 1 < 3 ∧ connect_indices 1 3 5 = [1, 2, 0, 1, 2] := by
  refine ⟨by decide, by decide, ?_⟩
  rw [connect_host_rotation 1 3 5 (by decide) (by decide)]
  decide

/-- C10 counterexample: with the index advanced against a host list of
length 3 (to 1) and the next fetch returning a list of length 1, the
lookup index 1 is out of bounds of the fresh list, refuting the claim
that the index is in bounds at every attempt even when the newly fetched
list is shorter. -/
theorem reconnect_index_oob :
    ¬ ∀ p ∈ reconnect_runs 0 [3, 1], p.1 < p.2 := by decide

/-- C10 amended: at every connect attempt the index used is in bounds of
the freshly fetched host list, provided every fetched list is non-empty,
no fetched list is shorter than the previous one, and the starting index
is in bounds of the first list. -/
theorem reconnect_index_inbounds : ∀ (Hs : List Nat) (i : Nat),
    (∀ H ∈ Hs, 0 < H) → Hs.Chain' (· ≤ ·) →
    (∀ H, Hs.head? = some H → i < H) →
    ∀ p ∈ reconnect_runs i Hs, p.1 < p.2 := by
  intro Hs
  induction Hs with
  | nil => intro i _ _ _ p hp; simp [reconnect_runs] at hp
  | cons H Hs ih =>
    intro i hpos hchain hi p hp
    rw [List.chain'_cons'] at hchain
    simp only [reconnect_runs, List.mem_cons] at hp
    rcases hp with rfl | hp
    · exact hi H rfl
    · refine ih ((i + 1) % H) (fun H2 h2 => hpos H2 (List.mem_cons_of_mem _ h2))
        hchain.2 ?_ p hp
      intro H2 h2
      have hH : 0 < H := hpos H (List.mem_cons_self _ _)
      have hm : (i + 1) % H < H := Nat.mod_lt _ hH
      have hle : H ≤ H2 := hchain.1 H2 h2
      omega

/-- Witness for reconnect_index_inbounds with lengths 2, 2, 3 and start
index 1. -/
theorem reconnect_index_inbounds_witness :
    (∀ H ∈ [2, 2, 3], 0 < H) ∧ List.Chain' (· ≤ ·) [2, 2, 3] ∧
    ∀ p ∈ reconnect_runs 1 [2, 2, 3], p.1 < p.2 :=
  ⟨by decide, by simp [List.chain'_cons],
    reconnect_index_inbounds [2, 2, 3] 1 (by decide) (by simp [List.chain'_cons]) (by decide)⟩

/-- C6: getRoomPlayInfo fails fast with a distinct error for each guard,
in the order the source checks them: locked, then encrypted, then not
live; in each failing case, and in particular for an offline room, it
issues zero play-info requests and returns no partial results. -/
theorem getRoomPlayInfo_fail_fast (r : RoomInit) (adj : Nat → List Nat) (fuel : Nat) :
    (r.is_locked = true → getRoomPlayInfo_model r adj fuel = (some .locked, [])) ∧
    (r.is_locked = false → r.encrypted = true →
      getRoomPlayInfo_model r adj fuel = (some .encrypted, [])) ∧
    (r.is_locked = false → r.encrypted = false → r.live_status ≠ 1 →
      getRoomPlayInfo_model r adj fuel = (some .offline, [])) := by
  refine ⟨fun h1 => ?_, fun h1 h2 => ?_, fun h1 h2 h3 => ?_⟩
  · simp [getRoomPlayInfo_model, room_check, h1]
  · simp [getRoomPlayInfo_model, room_check, h1, h2]
  · simp [getRoomPlayInfo_model, room_check, h1, h2, h3]

/-- Witness for getRoomPlayInfo_fail_fast: room 12345 with live_status 0
fails with the offline error and an empty request trace. -/
theorem getRoomPlayInfo_fail_fast_witness :
    getRoomPlayInfo_model ⟨1, 12345, 0, false, false⟩ (fun q => [q]) 5
      = (some .offline, []) :=
  (getRoomPlayInfo_fail_fast ⟨1, 12345, 0, false, false⟩ (fun q => [q]) 5).2.2
    rfl rfl (by decide)

lemma byteAt_append_add (xs ys : List Nat) (i : Nat) :
    byteAt (xs ++ ys) (xs.length + i) = byteAt ys i := by
  unfold byteAt
  rw [List.getD_append_right xs ys 0 (xs.length + i) (Nat.le_add_right _ _),
    Nat.add_sub_cancel_left]

lemma readU32_append_add (xs ys : List Nat) (i : Nat) :
    readU32 (xs ++ ys) (xs.length + i) = readU32 ys i := by
  unfold readU32
  have h1 : xs.length + i + 1 = xs.length + (i + 1) := by omega
  have h2 : xs.length + i + 2 = xs.length + (i + 2) := by omega
  have h3 : xs.length + i + 3 = xs.length + (i + 3) := by omega
  rw [h1, h2, h3, byteAt_append_add, byteAt_append_add, byteAt_append_add, byteAt_append_add]

lemma readU32_cons4 (a b c d : Nat) (rest : List Nat) :
    readU32 (a :: b :: c :: d :: rest) 0
      = ((a % 256 * 256 + b % 256) * 256 + c % 256) * 256 + d % 256 := rfl

lemma readU32_append_left4 (xs ys : List Nat) (h : 4 ≤ xs.length) :
    readU32 (xs ++ ys) 0 = readU32 xs 0 := by
  unfold readU32 byteAt
  rw [List.getD_append xs ys 0 0 (by omega), List.getD_append xs ys 0 1 (by omega),
    List.getD_append xs ys 0 2 (by omega), List.getD_append xs ys 0 3 (by omega)]

/-- C5: encoding a join or heartbeat frame from an operation type and a
body, then reading the encoded bytes back the way _decode2 does, yields
the original operation code (the i32 at offset 8) and the original body
(the bytes from offset 16). -/
theorem encode_decode_roundtrip (t : TYPE) (body : List Nat)
    (ht : t = TYPE.join ∨ t = TYPE.heartbeat) :
    readI32 (encode_frame t body) 8 = (type_to_op t : Int) ∧
    (encode_frame t body).drop 16 = body := by
  constructor
  · have hsplit : encode_frame t body
        = (write32BE (16 + body.length) ++ write32BE 1048577) ++
          (write32BE (type_to_op t) ++ (write32BE 1 ++ body)) := by
      simp [encode_frame, List.append_assoc]
    have h8 : (8 : Nat) = (write32BE (16 + body.length) ++ write32BE 1048577).length + 0 := by
      simp [write32BE]
    rw [hsplit]
    unfold readI32
    rw [h8, readU32_append_add]
    rcases ht with rfl | rfl
    · have hw : write32BE (type_to_op TYPE.join) ++ (write32BE 1 ++ body)
          = 0 :: 0 :: 0 :: 7 :: (write32BE 1 ++ body) := by
        norm_num [write32BE, type_to_op]
      rw [hw, readU32_cons4]
      norm_num [type_to_op]
    · have hw : write32BE (type_to_op TYPE.heartbeat) ++ (write32BE 1 ++ body)
          = 0 :: 0 :: 0 :: 2 :: (write32BE 1 ++ body) := by
        norm_num [write32BE, type_to_op]
      rw [hw, readU32_cons4]
      norm_num [type_to_op]
  · have hsplit : encode_frame t body
        = (write32BE (16 + body.length) ++ write32BE 1048577 ++
            write32BE (type_to_op t) ++ write32BE 1) ++ body := by
      simp [encode_frame, List.append_assoc]
    rw [hsplit]
    exact List.drop_left' (by simp [write32BE])

/-- Witness for encode_decode_roundtrip on a heartbeat frame with body
bytes 104, 105. -/
theorem encode_decode_roundtrip_witness :
    readI32 (encode_frame TYPE.heartbeat [104, 105]) 8 = 2 ∧
    (encode_frame TYPE.heartbeat [104, 105]).drop 16 = [104, 105] := by
  have h := encode_decode_roundtrip TYPE.heartbeat [104, 105] (Or.inr rfl)
  simpa [type_to_op] using h

lemma incomplete_of_front (t u : List Nat) (hpre : t <+: u) (hu : Incomplete u) :
    Incomplete t := by
  by_cases h4 : t.length < 4
  · exact Or.inl h4
  · push_neg at h4
    have hl := hpre.length_le
    rcases hu with h | h
    · exact Or.inl (by omega)
    · right
      obtain ⟨r, rfl⟩ := hpre
      rw [← readU32_append_left4 t r h4] at *
      omega

lemma incomplete_of_proper_front (f t : List Nat) (hf : FrameBytes f) (hpre : t <+: f)
    (hlt : t.length < f.length) : Incomplete t := by
  by_cases h4 : t.length < 4
  · exact Or.inl h4
  · push_neg at h4
    right
    obtain ⟨r, rfl⟩ := hpre
    have he : readU32 (t ++ r) 0 = readU32 t 0 := readU32_append_left4 t r h4
    have h2 := hf.2
    omega

lemma extractLoop_stream : ∀ (fs : List (List Nat)) (t : List Nat) (fuel : Nat),
    (∀ f ∈ fs, FrameBytes f) → Incomplete t → (fs.flatten ++ t).length < fuel →
    extractLoop fuel (fs.flatten ++ t) = some (fs, t) := by
  intro fs
  induction fs with
  | nil =>
    intro t fuel _ ht hfuel
    match fuel, hfuel with
    | fuel + 1, _ =>
      simp only [List.flatten_nil, List.nil_append]
      unfold extractLoop
      rcases ht with h | h
      · rw [if_neg (by omega)]
      · by_cases h4 : 4 ≤ t.length
        · rw [if_pos h4, if_pos h]
        · rw [if_neg h4]
  | cons f fs ih =>
    intro t fuel hwf ht hfuel
    have hf : FrameBytes f := hwf f (List.mem_cons_self _ _)
    have hrest : ∀ g ∈ fs, FrameBytes g := fun g hg => hwf g (List.mem_cons_of_mem _ hg)
    have hb : (f :: fs).flatten ++ t = f ++ (fs.flatten ++ t) := by
      simp [List.append_assoc]
    cases fuel with
    | zero => exact absurd hfuel (Nat.not_lt_zero _)
    | succ fuel =>
      rw [hb] at hfuel ⊢
      unfold extractLoop
      have hlen : 4 ≤ (f ++ (fs.flatten ++ t)).length := by
        have := hf.1
        simp only [List.length_append]
        omega
      have hread : readU32 (f ++ (fs.flatten ++ t)) 0 = f.length := by
        rw [readU32_append_left4 f _ hf.1, hf.2]
      rw [if_pos hlen, hread]
      rw [if_neg (by simp only [List.length_append]; omega)]
      rw [List.take_left, List.drop_left]
      rw [ih t fuel hrest ht
        (by have hf1 := hf.1; simp only [List.length_append] at hfuel ⊢; omega)]

lemma flatten_incomplete_nil (fs : List (List Nat)) (t : List Nat)
    (hwf : ∀ f ∈ fs, FrameBytes f) (h : Incomplete (fs.flatten ++ t)) : fs = [] := by
  cases fs with
  | nil => rfl
  | cons f fs =>
    exfalso
    have hf := hwf f (List.mem_cons_self _ _)
    have hb : (f :: fs).flatten ++ t = f ++ (fs.flatten ++ t) := by simp [List.append_assoc]
    rw [hb] at h
    have hread : readU32 (f ++ (fs.flatten ++ t)) 0 = f.length := by
      rw [readU32_append_left4 f _ hf.1, hf.2]
    have h1 := hf.1
    rcases h with h | h
    · simp only [List.length_append] at h
      omega
    · rw [hread] at h
      simp only [List.length_append] at h
      omega

lemma stream_prefix_decomp : ∀ (fs : List (List Nat)) (t p q : List Nat),
    (∀ f ∈ fs, FrameBytes f) → Incomplete t → p ++ q = fs.flatten ++ t →
    ∃ fs1 fs2 t2, fs = fs1 ++ fs2 ∧ p = fs1.flatten ++ t2 ∧ Incomplete t2 ∧
      t2 ++ q = fs2.flatten ++ t := by
  intro fs
  induction fs with
  | nil =>
    intro t p q _ ht heq
    simp only [List.flatten_nil, List.nil_append] at heq
    exact ⟨[], [], p, rfl, by simp, incomplete_of_front p t ⟨q, heq⟩ ht, by simpa using heq⟩
  | cons f fs ih =>
    intro t p q hwf ht heq
    have hf : FrameBytes f := hwf f (List.mem_cons_self _ _)
    have heq2 : p ++ q = f ++ (fs.flatten ++ t) := by
      rw [heq]
      simp [List.append_assoc]
    by_cases hlt : p.length < f.length
    · refine ⟨[], f :: fs, p, rfl, by simp, ?_, heq⟩
      exact incomplete_of_proper_front f p hf
        (List.prefix_of_prefix_length_le ⟨q, heq2⟩ (List.prefix_append f _) (by omega)) hlt
    · push_neg at hlt
      have hfp : f <+: p := List.prefix_of_prefix_length_le (List.prefix_append f _) ⟨q, heq2⟩ hlt
      obtain ⟨p2, rfl⟩ := hfp
      have heq3 : p2 ++ q = fs.flatten ++ t := by
        rw [List.append_assoc] at heq2
        exact List.append_cancel_left heq2
      obtain ⟨fs1, fs2, t2, hfs, hp, ht2, hrest⟩ :=
        ih t p2 q (fun g hg => hwf g (List.mem_cons_of_mem _ hg)) ht heq3
      exact ⟨f :: fs1, fs2, t2, by simp [hfs], by rw [hp]; simp [List.append_assoc], ht2, hrest⟩

lemma feedChunks_extract : ∀ (chunks fs : List (List Nat)) (acc t : List Nat),
    (∀ f ∈ fs, FrameBytes f) → Incomplete acc → Incomplete t →
    acc ++ chunks.flatten = fs.flatten ++ t →
    feedChunks acc chunks = some (fs, t) := by
  intro chunks
  induction chunks with
  | nil =>
    intro fs acc t hwf hacc ht heq
    simp only [List.flatten_nil, List.append_nil] at heq
    have hfs : fs = [] := flatten_incomplete_nil fs t hwf (heq ▸ hacc)
    subst hfs
    simp only [List.flatten_nil, List.nil_append] at heq
    rw [heq]
    rfl
  | cons c cs ih =>
    intro fs acc t hwf hacc ht heq
    have heqc : (acc ++ c) ++ cs.flatten = fs.flatten ++ t := by
      rw [← heq]
      simp [List.append_assoc]
    obtain ⟨fs1, fs2, t2, hfs, hp, ht2, hrest⟩ :=
      stream_prefix_decomp fs t (acc ++ c) cs.flatten hwf ht heqc
    have hwf1 : ∀ f ∈ fs1, FrameBytes f := fun f hf => hwf f (hfs ▸ List.mem_append_left _ hf)
    have hwf2 : ∀ f ∈ fs2, FrameBytes f := fun f hf => hwf f (hfs ▸ List.mem_append_right _ hf)
    have hod : on_data acc c = some (fs1, t2) := by
      unfold on_data
      rw [hp]
      exact extractLoop_stream fs1 t2 _ hwf1 ht2 (by omega)
    have hrec : feedChunks t2 cs = some (fs2, t) := ih fs2 t2 t hwf2 ht2 ht hrest
    simp [feedChunks, hod, hrec, hfs]

/-- C1: for every byte stream that is a concatenation of complete frames
followed by an incomplete tail, delivering it to _on_data in any chunk
partition extracts exactly the frames of the stream in order, with the
incomplete tail retained in the accumulator, and delivering everything in
one single chunk gives the same result. -/
theorem on_data_chunk_independence (fs chunks : List (List Nat)) (t : List Nat)
    (hfs : ∀ f ∈ fs, FrameBytes f) (ht : Incomplete t)
    (hsplit : chunks.flatten = fs.flatten ++ t) :
    feedChunks [] chunks = some (fs, t) ∧
    feedChunks [] [fs.flatten ++ t] = some (fs, t) := by
  constructor
  · exact feedChunks_extract chunks fs [] t hfs (Or.inl (by simp)) ht (by simpa using hsplit)
  · exact feedChunks_extract [fs.flatten ++ t] fs [] t hfs (Or.inl (by simp)) ht (by simp)

/-- Witness for on_data_chunk_independence: two frames split across four
chunks at frame-misaligned boundaries, with a 3-byte incomplete tail. -/
theorem on_data_chunk_independence_witness :
    (∀ f ∈ [[0, 0, 0, 4], [0, 0, 0, 5, 7]], FrameBytes f) ∧
    Incomplete [0, 0, 0] ∧
    ([[0, 0], [0, 4, 0, 0], [0, 5], [7, 0, 0, 0]] : List (List Nat)).flatten
      = [[0, 0, 0, 4], [0, 0, 0, 5, 7]].flatten ++ [0, 0, 0] ∧
    feedChunks [] [[0, 0], [0, 4, 0, 0], [0, 5], [7, 0, 0, 0]]
      = some ([[0, 0, 0, 4], [0, 0, 0, 5, 7]], [0, 0, 0]) ∧
    feedChunks [] [[[0, 0, 0, 4], [0, 0, 0, 5, 7]].flatten ++ [0, 0, 0]]
      = some ([[0, 0, 0, 4], [0, 0, 0, 5, 7]], [0, 0, 0]) := by
  refine ⟨by decide, by decide, by decide, ?_, ?_⟩
  · exact (on_data_chunk_independence [[0, 0, 0, 4], [0, 0, 0, 5, 7]]
      [[0, 0], [0, 4, 0, 0], [0, 5], [7, 0, 0, 0]] [0, 0, 0]
      (by decide) (by decide) (by decide)).1
  · exact (on_data_chunk_independence [[0, 0, 0, 4], [0, 0, 0, 5, 7]]
      [[0, 0], [0, 4, 0, 0], [0, 5], [7, 0, 0, 0]] [0, 0, 0]
      (by decide) (by decide) (by decide)).2

lemma extractLoop_zeros : ∀ fuel, extractLoop fuel [0, 0, 0, 0] = none := by
  intro fuel
  induction fuel with
  | zero => rfl
  | succ k ih =>
    unfold extractLoop
    rw [if_pos (by decide), if_neg (by decide)]
    rw [show readU32 [0, 0, 0, 0] 0 = 0 from rfl, List.drop_zero, ih]

/-- C9 counterexample: on the buffer 00 00 00 00 (a zero u32 length
field) the extraction loop of _on_data never advances and never exits,
for any amount of fuel, refuting termination on every input. -/
theorem extract_zero_length_stalls : ¬ ExtractTerminates [0, 0, 0, 0] := by
  rintro ⟨fuel, h⟩
  rw [extractLoop_zeros fuel] at h
  simp at h

/-- C9 amended: the extraction loop of _on_data terminates on every
buffer made of complete frames followed by an incomplete tail (every
length field read is then positive), and on any buffer a step with a
positive declared length strictly advances past it, which also bounds
the scan of _decode; only a zero length field stalls the loops. -/
theorem extract_terminates_of_pos (fs : List (List Nat)) (t : List Nat)
    (hfs : ∀ f ∈ fs, FrameBytes f) (ht : Incomplete t) :
    ExtractTerminates (fs.flatten ++ t) ∧
    (∀ b : List Nat, 4 ≤ b.length → 0 < readU32 b 0 →
      (b.drop (readU32 b 0)).length < b.length) := by
  constructor
  · exact ⟨(fs.flatten ++ t).length + 1, by
      rw [extractLoop_stream fs t _ hfs ht (by omega)]
      rfl⟩
  · intro b h4 hpos
    rw [List.length_drop]
    omega

/-- Witness for extract_terminates_of_pos on a single 4-byte frame with
an empty tail. -/
theorem extract_terminates_of_pos_witness :
    (∀ f ∈ [[0, 0, 0, 4]], FrameBytes f) ∧ Incomplete ([] : List Nat) ∧
    ExtractTerminates ([[0, 0, 0, 4]].flatten ++ []) :=
  ⟨by decide, by decide,
    (extract_terminates_of_pos [[0, 0, 0, 4]] [] (by decide) (by decide)).1⟩

lemma bfs_trace_nodup (adj : Nat → List Nat) :
    ∀ (fuel : Nat) (visited : Finset Nat) (queue : List Nat),
      (bfs_trace adj fuel visited queue).1.Nodup ∧
      ∀ x ∈ (bfs_trace adj fuel visited queue).1, x ∉ visited := by
  intro fuel
  induction fuel with
  | zero =>
    intro visited queue
    cases queue <;> simp [bfs_trace]
  | succ fuel ih =>
    intro visited queue
    cases queue with
    | nil => simp [bfs_trace]
    | cons qn rest =>
      by_cases hv : qn ∈ visited
      · simpa [bfs_trace, hv] using ih visited rest
      · have h2 := ih (insert qn visited) (rest ++ adj qn)
        simp only [bfs_trace, if_neg hv]
        refine ⟨List.nodup_cons.mpr ⟨fun hmem => ?_, h2.1⟩, ?_⟩
        · exact (h2.2 qn hmem) (Finset.mem_insert_self _ _)
        · intro x hx
          rcases List.mem_cons.mp hx with rfl | hx
          · exact hv
          · exact fun hxv => (h2.2 x hx) (Finset.mem_insert_of_mem hxv)

lemma bfs_trace_complete (adj : Nat → List Nat) (V : Finset Nat)
    (hcl : ∀ v ∈ V, ∀ u ∈ adj v, u ∈ V) :
    ∀ (fuel : Nat) (visited : Finset Nat) (queue : List Nat),
      visited ⊆ V → (∀ q ∈ queue, q ∈ V) →
      queue.length + ∑ v ∈ V \ visited, ((adj v).length + 1) < fuel →
      (bfs_trace adj fuel visited queue).2 = true := by
  intro fuel
  induction fuel with
  | zero => intro visited queue _ _ h; exact absurd h (Nat.not_lt_zero _)
  | succ fuel ih =>
    intro visited queue hsub hq hfuel
    cases queue with
    | nil => simp [bfs_trace]
    | cons qn rest =>
      by_cases hv : qn ∈ visited
      · have hred : bfs_trace adj (fuel + 1) visited (qn :: rest)
            = bfs_trace adj fuel visited rest := by
          simp [bfs_trace, hv]
        rw [hred]
        refine ih visited rest hsub (fun q hq2 => hq q (List.mem_cons_of_mem _ hq2)) ?_
        simp only [List.length_cons] at hfuel
        omega
      · have hqnV : qn ∈ V := hq qn (List.mem_cons_self _ _)
        have hsub2 : insert qn visited ⊆ V := Finset.insert_subset_iff.mpr ⟨hqnV, hsub⟩
        have hq2 : ∀ q ∈ rest ++ adj qn, q ∈ V := by
          intro q hq3
          rcases List.mem_append.mp hq3 with h | h
          · exact hq q (List.mem_cons_of_mem _ h)
          · exact hcl qn hqnV q h
        have hmem : qn ∈ V \ visited := Finset.mem_sdiff.mpr ⟨hqnV, hv⟩
        have hset : V \ insert qn visited = (V \ visited).erase qn := by
          ext x
          simp only [Finset.mem_sdiff, Finset.mem_erase, Finset.mem_insert]
          tauto
        have hsum : ∑ v ∈ V \ insert qn visited, ((adj v).length + 1) + ((adj qn).length + 1)
            = ∑ v ∈ V \ visited, ((adj v).length + 1) := by
          rw [hset]
          exact Finset.sum_erase_add _ _ hmem
        have hred : (bfs_trace adj (fuel + 1) visited (qn :: rest)).2
            = (bfs_trace adj fuel (insert qn visited) (rest ++ adj qn)).2 := by
          simp [bfs_trace, hv]
        rw [hred]
        refine ih (insert qn visited) (rest ++ adj qn) hsub2 hq2 ?_
        simp only [List.length_append, List.length_cons] at hfuel ⊢
        omega

/-- C7: for every finite accept-tier graph (a finite set V of tiers
containing the seed 1 and closed under the accept edges, cycles allowed),
the breadth-first traversal of getRoomPlayInfo exhausts its queue within
some fuel bound, so it terminates, and its trace of play-info requests
contains each tier at most once. -/
theorem quality_traversal_terminates (adj : Nat → List Nat) (V : Finset Nat)
    (h1 : 1 ∈ V) (hcl : ∀ v ∈ V, ∀ u ∈ adj v, u ∈ V) :
    ∃ fuel tr, bfs_trace adj fuel ∅ [1] = (tr, true) ∧ tr.Nodup := by
  refine ⟨1 + ∑ v ∈ V, ((adj v).length + 1) + 1,
    (bfs_trace adj (1 + ∑ v ∈ V, ((adj v).length + 1) + 1) ∅ [1]).1, ?_, ?_⟩
  · have hc := bfs_trace_complete adj V hcl (1 + ∑ v ∈ V, ((adj v).length + 1) + 1) ∅ [1]
      (Finset.empty_subset _) (by simpa using h1)
      (by simp only [Finset.sdiff_empty, List.length_cons, List.length_nil]; omega)
    rw [← hc]
  · exact (bfs_trace_nodup adj _ ∅ [1]).1

/-- Witness for quality_traversal_terminates on the cyclic graph where
tier 1 accepts tiers 1 and 2 and tier 2 accepts tier 1. -/
theorem quality_traversal_terminates_witness :
    1 ∈ ({1, 2} : Finset Nat) ∧
    (∀ v ∈ ({1, 2} : Finset Nat),
      ∀ u ∈ (if v = 1 then [1, 2] else if v = 2 then [1] else []), u ∈ ({1, 2} : Finset Nat)) ∧
    ∃ fuel tr,
      bfs_trace (fun v => if v = 1 then [1, 2] else if v = 2 then [1] else []) fuel ∅ [1]
        = (tr, true) ∧ tr.Nodup :=
  ⟨by decide, by decide,
    quality_traversal_terminates
      (fun v => if v = 1 then [1, 2] else if v = 2 then [1] else []) {1, 2}
      (by decide) (by decide)⟩

lemma decode2_leaf (oz : Oracles) (f : List Nat) (hwf : SubFrameWF oz f) :
    ∀ fuel, 1 ≤ fuel → decode2 oz fuel f = some (.leaf (leafOf oz f)) := by
  obtain ⟨h16, hlen, hp2, hp3, hp0⟩ := hwf
  intro fuel hfuel
  cases fuel with
  | zero => exact absurd hfuel (by omega)
  | succ n =>
    unfold decode2
    rw [if_neg (by omega)]
    by_cases h0 : readI16 f 6 = 0
    · obtain ⟨v, hv⟩ := Option.isSome_iff_exists.mp (hp0 h0)
      rw [if_pos h0, hv]
      simp only [leafOf]
      rw [if_pos h0, hv]
      rfl
    · rw [if_neg h0]
      by_cases h1 : readI16 f 6 = 1 ∧ (f.drop 16).length = 4
      · rw [if_pos h1]
        simp only [leafOf]
        rw [if_neg h0, if_pos h1]
      · rw [if_neg h1, if_neg hp2, if_neg hp3]
        simp only [leafOf]
        rw [if_neg h0, if_neg h1]

lemma forall₂_map_self {α β : Type} (g : α → β) (P : α → β → Prop) :
    ∀ l : List α, (∀ x ∈ l, P x (g x)) → List.Forall₂ P l (l.map g) := by
  intro l
  induction l with
  | nil => exact fun _ => List.Forall₂.nil
  | cons a l ih =>
    intro h
    exact List.Forall₂.cons (h a (List.mem_cons_self _ _))
      (ih fun x hx => h x (List.mem_cons_of_mem _ hx))

lemma flatMap_leaf_map (oz : Oracles) (fs : List (List Nat)) :
    ((fs.map fun f => D2Result.leaf (leafOf oz f)).flatMap flattenD2) = fs.map (leafOf oz) := by
  induction fs with
  | nil => rfl
  | cons f fs ih => simp [flattenD2, ih]

lemma decodeLoop_general (oz : Oracles) :
    ∀ (fs : List (List Nat)) (rs : List D2Result) (fuel0 fuel : Nat),
      (∀ f ∈ fs, FrameBytes f) →
      List.Forall₂ (fun f r => ∀ m, fuel0 ≤ m → decode2 oz m f = some r) fs rs →
      fs.flatten.length + fuel0 < fuel →
      decodeLoop oz fuel fs.flatten = some rs := by
  intro fs
  induction fs with
  | nil =>
    intro rs fuel0 fuel _ hall hfuel
    cases hall
    cases fuel with
    | zero => exact absurd hfuel (Nat.not_lt_zero _)
    | succ k => simp [decodeLoop]
  | cons f fs ih =>
    intro rs fuel0 fuel hwf hall hfuel
    cases hall with
    | cons hfr htail =>
      cases fuel with
      | zero => exact absurd hfuel (Nat.not_lt_zero _)
      | succ k =>
        have hf : FrameBytes f := hwf f (List.mem_cons_self _ _)
        have hf1 := hf.1
        rw [List.flatten_cons] at hfuel ⊢
        unfold decodeLoop
        rw [if_neg (by simp only [List.length_append]; omega),
          if_neg (by simp only [List.length_append]; push_neg; omega)]
        have hread : readU32 (f ++ fs.flatten) 0 = f.length := by
          rw [readU32_append_left4 f _ hf.1, hf.2]
        rw [hread, List.take_left, List.drop_left]
        rw [hfr k (by simp only [List.length_append] at hfuel; omega)]
        rw [ih _ fuel0 k (fun g hg => hwf g (List.mem_cons_of_mem _ hg)) htail
          (by simp only [List.length_append] at hfuel; omega)]

lemma decode2_container_general (oz : Oracles) (fuel fuel0 : Nat) (c : List Nat)
    (fs : List (List Nat)) (rs : List D2Result)
    (h16 : 16 ≤ c.length)
    (hpro : (readI16 c 6 = 2 ∧ oz.inflate (c.drop 16) = some fs.flatten) ∨
            (readI16 c 6 = 3 ∧ oz.brotli (c.drop 16) = some fs.flatten))
    (hwf : ∀ f ∈ fs, FrameBytes f)
    (hall : List.Forall₂ (fun f r => ∀ m, fuel0 ≤ m → decode2 oz m f = some r) fs rs)
    (hfuel : fs.flatten.length + fuel0 + 1 < fuel) :
    decode2 oz fuel c
      = some (.container (readI16 c 6) (op_to_type (readI32 c 8)) (rs.flatMap flattenD2)) := by
  cases fuel with
  | zero => exact absurd hfuel (Nat.not_lt_zero _)
  | succ k =>
    unfold decode2
    rw [if_neg (by omega)]
    rcases hpro with ⟨h2, hinf⟩ | ⟨h3, hbro⟩
    · rw [h2]
      rw [if_neg (by norm_num), if_neg (by simp), if_pos rfl, hinf]
      have hdl := decodeLoop_general oz fs rs fuel0 k hwf hall (by omega)
      simp [hdl]
    · rw [h3]
      rw [if_neg (by norm_num), if_neg (by simp), if_neg (by norm_num), if_pos rfl, hbro]
      have hdl := decodeLoop_general oz fs rs fuel0 k hwf hall (by omega)
      simp [hdl]

/-- C4: a container frame (protocol 2, zlib, or 3, brotli) whose
decompressed body is the concatenation of N complete non-container
sub-frames decodes to a container result holding exactly N leaves, the
i-th leaf being exactly what _decode2 returns when handed the i-th
sub-frame directly at any fuel; and in general (second conjunct) a
container whose body decompresses to any concatenation of complete
frames, containers included, decodes to the flattening of the results of
decoding each sub-frame directly, so nested containers are walked
recursively and their leaves spliced into the outer result list. -/
theorem container_decode :
    (∀ (oz : Oracles) (fuel : Nat) (c : List Nat) (fs : List (List Nat)),
      16 ≤ c.length →
      ((readI16 c 6 = 2 ∧ oz.inflate (c.drop 16) = some fs.flatten) ∨
       (readI16 c 6 = 3 ∧ oz.brotli (c.drop 16) = some fs.flatten)) →
      (∀ f ∈ fs, SubFrameWF oz f) →
      fs.flatten.length + 2 < fuel →
      decode2 oz fuel c
        = some (.container (readI16 c 6) (op_to_type (readI32 c 8)) (fs.map (leafOf oz))) ∧
      (fs.map (leafOf oz)).length = fs.length ∧
      (∀ f ∈ fs, ∀ m, 1 ≤ m → decode2 oz m f = some (.leaf (leafOf oz f)))) ∧
    (∀ (oz : Oracles) (fuel fuel0 : Nat) (c : List Nat) (fs : List (List Nat))
      (rs : List D2Result),
      16 ≤ c.length →
      ((readI16 c 6 = 2 ∧ oz.inflate (c.drop 16) = some fs.flatten) ∨
       (readI16 c 6 = 3 ∧ oz.brotli (c.drop 16) = some fs.flatten)) →
      (∀ f ∈ fs, FrameBytes f) →
      List.Forall₂ (fun f r => ∀ m, fuel0 ≤ m → decode2 oz m f = some r) fs rs →
      fs.flatten.length + fuel0 + 1 < fuel →
      decode2 oz fuel c
        = some (.container (readI16 c 6) (op_to_type (readI32 c 8)) (rs.flatMap flattenD2))) := by
  constructor
  · intro oz fuel c fs h16 hpro hwf hfuel
    refine ⟨?_, by simp, fun f hf => decode2_leaf oz f (hwf f hf)⟩
    have hgen := decode2_container_general oz fuel 1 c fs
      (fs.map fun f => D2Result.leaf (leafOf oz f)) h16 hpro
      (fun f hf => ⟨by have := (hwf f hf).1; omega, (hwf f hf).2.1⟩)
      (forall₂_map_self _ _ fs (fun f hf => decode2_leaf oz f (hwf f hf)))
      (by omega)
    rw [hgen, flatMap_leaf_map]
  · exact fun oz fuel fuel0 c fs rs => decode2_container_general oz fuel fuel0 c fs rs

/-- Witness for container_decode: the concrete container frame whose
decompressed body concatenates a protocol-0 and a protocol-1 sub-frame
yields exactly those two leaves, each equal to its direct decode. -/
theorem container_decode_witness :
    16 ≤ cont_frame.length ∧
    (readI16 cont_frame 6 = 2 ∧
      oz_demo.inflate (cont_frame.drop 16) = some ([sub_json, sub_num].flatten)) ∧
    (∀ f ∈ [sub_json, sub_num], SubFrameWF oz_demo f) ∧
    decode2 oz_demo 40 cont_frame
      = some (.container (readI16 cont_frame 6) (op_to_type (readI32 cont_frame 8))
          ([sub_json, sub_num].map (leafOf oz_demo))) ∧
    decode2 oz_demo 1 sub_json = some (.leaf (leafOf oz_demo sub_json)) := by
  refine ⟨by decide, ⟨by decide, by decide⟩, by decide, ?_, ?_⟩
  · exact (container_decode.1 oz_demo 40 cont_frame [sub_json, sub_num]
      (by decide) (Or.inl ⟨by decide, by decide⟩) (by decide) (by decide)).1
  · exact (container_decode.1 oz_demo 40 cont_frame [sub_json, sub_num]
      (by decide) (Or.inl ⟨by decide, by decide⟩) (by decide) (by decide)).2.2
      sub_json (by decide) 1 (by decide)

/-- C3 counterexample: on the post-heartbeat state s0, calling close
twice emits two quit events (there is no closed guard inside close, so
close is not idempotent in its quit emission); and when the watchdog has
already fired (scheduling the anonymous 100 ms reconnect with id 3)
before close is called, that scheduled reconnect still runs after close
and even delivers an init event to the caller, refuting that close
prevents every scheduled reconnect callback from taking effect and that
no further events are delivered. -/
theorem close_not_clean :
    (run s0 [.callClose, .callClose]).quits = 2 ∧
    (run s0 [.fire 2 true, .callClose, .fire 3 true]).closed = true ∧
    (run s0 [.fire 2 true, .callClose, .fire 3 true]).reconnects = 1 ∧
    (run s0 [.fire 2 true, .callClose, .fire 3 true]).inits = 1 := by decide

/-- C3 amended: a single close call sets the closed flag, cancels both
stored timers (which then cannot fire), emits exactly one quit event,
and tears down the socket; afterwards decoded batches are not delivered
(no message events) and a socket close does not schedule a reconnect; but
close is not idempotent in its observable effect: a second call emits a
second quit, and a reconnect already scheduled by _on_close keeps its
effect (see the counterexample). -/
theorem close_props (s : Conn) :
    (close_m s).closed = true ∧
    (close_m s).quits = s.quits + 1 ∧
    (close_m s).socket = false ∧
    (∀ t ∈ (close_m s).pending, t.id ≠ s.timer_heartbeat ∧ t.id ≠ s.timer_reconnect) ∧
    (∀ ok, step (close_m s) (.fire s.timer_heartbeat ok) = close_m s) ∧
    (∀ ok, step (close_m s) (.fire s.timer_reconnect ok) = close_m s) ∧
    (∀ rs, on_decoded_m (close_m s) rs = close_m s) ∧
    (close_m (close_m s)).quits = s.quits + 2 ∧
    (∀ s2 : Conn, s2.closed = true → on_close_m s2 = s2) := by
  have hpend : (close_m s).pending
      = (s.pending.filter fun u => u.id ≠ s.timer_heartbeat).filter
          (fun u => u.id ≠ s.timer_reconnect) := rfl
  have hmem : ∀ t ∈ (close_m s).pending, t.id ≠ s.timer_heartbeat ∧ t.id ≠ s.timer_reconnect := by
    intro t ht
    rw [hpend] at ht
    have h2 := List.mem_filter.mp ht
    have h1 := List.mem_filter.mp h2.1
    constructor
    · simpa using h1.2
    · simpa using h2.2
  refine ⟨rfl, rfl, rfl, hmem, ?_, ?_, ?_, rfl, ?_⟩
  · intro ok
    have hfind : (close_m s).pending.find? (fun u => u.id = s.timer_heartbeat) = none := by
      rw [List.find?_eq_none]
      intro u hu
      simpa using (hmem u hu).1
    simp [step, hfind]
  · intro ok
    have hfind : (close_m s).pending.find? (fun u => u.id = s.timer_reconnect) = none := by
      rw [List.find?_eq_none]
      intro u hu
      simpa using (hmem u hu).2
    simp [step, hfind]
  · intro rs
    have hc : (close_m s).closed = true := rfl
    unfold on_decoded_m
    rw [if_pos hc]
  · intro s2 h2
    unfold on_close_m
    rw [if_pos h2]

lemma countP_filter_remove (l : List Timer) (t : Timer) (p : Timer → Bool)
    (hmem : t ∈ l) (hpw : l.Pairwise (fun a b => a.id ≠ b.id)) (hp : p t = true) :
    (l.filter fun u => u.id ≠ t.id).countP p + 1 ≤ l.countP p := by
  induction l with
  | nil => cases hmem
  | cons x l ih =>
    rcases List.mem_cons.mp hmem with rfl | hmem2
    · rw [List.filter_cons_of_neg (by simp)]
      rw [List.countP_cons, if_pos hp]
      have hle := ((List.filter_sublist (p := fun u => u.id ≠ t.id) l)).countP_le p
      omega
    · have hxt : x.id ≠ t.id := List.rel_of_pairwise_cons hpw hmem2
      rw [List.filter_cons_of_pos (by simpa using hxt)]
      rw [List.countP_cons, List.countP_cons]
      have := ih hmem2 hpw.of_cons
      omega

lemma on_decoded_msgs_only : ∀ (rs : List TYPE),
    (∀ x ∈ rs, x = TYPE.message ∨ x = TYPE.unknown ∨ x = TYPE.join) →
    ∀ s : Conn, ∃ k, List.foldl on_decoded_step s rs = { s with msgs := s.msgs + k } := by
  intro rs
  induction rs with
  | nil => exact fun _ s => ⟨0, rfl⟩
  | cons x rs ih =>
    intro hrs s
    have htail : ∀ y ∈ rs, y = TYPE.message ∨ y = TYPE.unknown ∨ y = TYPE.join :=
      fun y hy => hrs y (List.mem_cons_of_mem _ hy)
    rcases hrs x (List.mem_cons_self _ _) with rfl | rfl | rfl
    · obtain ⟨k, hk⟩ := ih htail { s with msgs := s.msgs + 1 }
      refine ⟨1 + k, ?_⟩
      rw [List.foldl_cons]
      show List.foldl on_decoded_step { s with msgs := s.msgs + 1 } rs = _
      rw [hk]
      have hm : ({ s with msgs := s.msgs + 1 } : Conn).msgs = s.msgs + 1 := rfl
      rw [hm]
      congr 1
      omega
    · obtain ⟨k, hk⟩ := ih htail s
      exact ⟨k, by rw [List.foldl_cons]; exact hk⟩
    · obtain ⟨k, hk⟩ := ih htail s
      exact ⟨k, by rw [List.foldl_cons]; exact hk⟩

lemma on_decoded_restricted (s : Conn) (rs : List TYPE)
    (hrs : ∀ x ∈ rs, x = TYPE.message ∨ x = TYPE.unknown ∨ x = TYPE.join) :
    ∃ k, on_decoded_m s rs = { s with msgs := s.msgs + k } := by
  unfold on_decoded_m
  by_cases hc : s.closed = true
  · exact ⟨0, by rw [if_pos hc]; rfl⟩
  · rw [if_neg hc]
    exact on_decoded_msgs_only rs hrs s

lemma INV_of_single_wd (s : Conn) (w : Timer)
    (hcl : s.closed = false)
    (hpend : s.pending = [w])
    (hwcb : w.cb ≠ CB.heartbeat_cb)
    (hwn : w.id < s.nextId)
    (hrh : s.timer_reconnect ≠ s.timer_heartbeat)
    (hrn : s.timer_reconnect < s.nextId)
    (hhn : s.timer_heartbeat < s.nextId) : INV s := by
  refine ⟨hcl, ?_, ?_, hrh, hrn, hhn, ?_, ?_, ?_, ?_⟩
  · rw [hpend]
    exact List.pairwise_singleton _ _
  · intro u hu
    rw [hpend] at hu
    rw [List.mem_singleton.mp hu]
    exact hwn
  · intro u hu hcb
    rw [hpend] at hu
    rw [List.mem_singleton.mp hu] at hcb
    exact absurd hcb hwcb
  · simp only [wcount, hpend, List.countP_cons, List.countP_nil]
    split <;> omega
  · intro a ha hacb h hh hhcb
    rw [hpend] at hh
    rw [List.mem_singleton.mp hh] at hhcb
    exact absurd hhcb hwcb
  · intro a ha hacb
    right
    intro h hh
    rw [hpend] at hh
    rw [List.mem_singleton.mp hh]
    exact hwcb

lemma on_close_m_of_open (s : Conn) (h : s.closed = false) :
    on_close_m s = (setT s .reconnect_cb 100).1 := by
  unfold on_close_m
  rw [if_neg (by rw [h]; simp)]

lemma INV_on_close (s : Conn) (h : s.closed = false)
    (hinv : INV ((setT s .reconnect_cb 100).1)) : INV (on_close_m s) := by
  rw [on_close_m_of_open s h]
  exact hinv

lemma INV_fire (s : Conn) (i : Nat) (ok : Bool) (hs : INV s) :
    INV (step s (.fire i ok)) := by
  obtain ⟨hcl, hpw, hlt, hrh, hrn, hhn, hhb, hwc, hprio, hwid⟩ := hs
  cases hfind : s.pending.find? (fun t => t.id = i) with
  | none =>
    have hst : step s (.fire i ok) = s := by simp [step, hfind]
    rw [hst]
    exact ⟨hcl, hpw, hlt, hrh, hrn, hhn, hhb, hwc, hprio, hwid⟩
  | some t =>
    by_cases hmin : isMin s t = true
    case neg =>
      have hst : step s (.fire i ok) = s := by simp [step, hfind, hmin]
      rw [hst]
      exact ⟨hcl, hpw, hlt, hrh, hrn, hhn, hhb, hwc, hprio, hwid⟩
    case pos =>
      have htmem : t ∈ s.pending := List.mem_of_find?_eq_some hfind
      have htid : t.id = i := by simpa using List.find?_some hfind
      subst htid
      have hst : step s (.fire t.id ok)
          = runCB { s with pending := s.pending.filter (fun u => u.id ≠ t.id),
                           now := t.deadline } t.cb ok := by
        simp [step, hfind, hmin]
      rw [hst]
      cases hcb : t.cb with
      | heartbeat_cb =>
        have htidh : t.id = s.timer_heartbeat := hhb t htmem hcb
        have hemp : (s.pending.filter fun u => u.id ≠ t.id).filter
            (fun u => u.id ≠ s.timer_reconnect) = [] := by
          rw [List.eq_nil_iff_forall_not_mem]
          intro u hu
          have h2 := List.mem_filter.mp hu
          have h1 := List.mem_filter.mp h2.1
          have hne_t : u.id ≠ t.id := by simpa using h1.2
          have hne_r : u.id ≠ s.timer_reconnect := by simpa using h2.2
          by_cases hucb : u.cb = CB.heartbeat_cb
          · exact hne_t ((hhb u h1.1 hucb).trans htidh.symm)
          · rcases hwid u h1.1 hucb with h | h
            · exact hne_r h
            · exact (h t htmem) hcb
        refine INV_of_single_wd _ ⟨s.nextId, t.deadline + 15000, CB.on_close_cb⟩
          hcl ?_ (by simp) ?_ ?_ ?_ ?_
        · show (s.pending.filter fun u => u.id ≠ t.id).filter
              (fun u => u.id ≠ s.timer_reconnect)
            ++ [⟨s.nextId, t.deadline + 15000, CB.on_close_cb⟩] = _
          rw [hemp]
          rfl
        · show s.nextId < s.nextId + 1
          omega
        · show s.nextId ≠ s.timer_heartbeat
          omega
        · show s.nextId < s.nextId + 1
          omega
        · show s.timer_heartbeat < s.nextId + 1
          omega
      | on_close_cb =>
        have hcbne : t.cb ≠ CB.heartbeat_cb := by rw [hcb]; simp
        have hnohb : ∀ h ∈ s.pending, h.cb ≠ CB.heartbeat_cb := by
          intro h hmem hhcb
          have hpl : prio_lt h t := hprio t htmem hcbne h hmem hhcb
          have hminp := of_decide_eq_true ((List.all_eq_true.mp hmin) h hmem)
          rcases hpl with h1 | ⟨h1, h2⟩ <;> rcases hminp with h3 | ⟨h3, h4⟩ <;> omega
        have hemp1 : s.pending.filter (fun u => u.id ≠ t.id) = [] := by
          rw [List.eq_nil_iff_forall_not_mem]
          intro u hu
          have h1 := List.mem_filter.mp hu
          by_cases hucb : u.cb = CB.heartbeat_cb
          · exact hnohb u h1.1 hucb
          · have hcount := countP_filter_remove s.pending t
              (fun v => decide (v.cb ≠ CB.heartbeat_cb)) htmem hpw
              (decide_eq_true hcbne)
            have hwc2 : s.pending.countP (fun v => decide (v.cb ≠ CB.heartbeat_cb)) ≤ 1 := hwc
            have hzero := List.countP_eq_zero.mp (by omega :
              (s.pending.filter fun u => u.id ≠ t.id).countP
                (fun v => decide (v.cb ≠ CB.heartbeat_cb)) = 0) u hu
            exact hzero (decide_eq_true hucb)
        show INV (on_close_m _)
        refine INV_on_close _ hcl ?_
        refine INV_of_single_wd _ ⟨s.nextId, t.deadline + 100, CB.reconnect_cb⟩
          hcl ?_ (by simp) ?_ ?_ ?_ ?_
        · show s.pending.filter (fun u => u.id ≠ t.id)
            ++ [⟨s.nextId, t.deadline + 100, CB.reconnect_cb⟩] = _
          rw [hemp1]
          rfl
        · show s.nextId < s.nextId + 1
          omega
        · exact hrh
        · show s.timer_reconnect < s.nextId + 1
          omega
        · show s.timer_heartbeat < s.nextId + 1
          omega
      | reconnect_cb =>
        have hcbne : t.cb ≠ CB.heartbeat_cb := by rw [hcb]; simp
        have hnohb : ∀ h ∈ s.pending, h.cb ≠ CB.heartbeat_cb := by
          intro h hmem hhcb
          have hpl : prio_lt h t := hprio t htmem hcbne h hmem hhcb
          have hminp := of_decide_eq_true ((List.all_eq_true.mp hmin) h hmem)
          rcases hpl with h1 | ⟨h1, h2⟩ <;> rcases hminp with h3 | ⟨h3, h4⟩ <;> omega
        have hemp1 : s.pending.filter (fun u => u.id ≠ t.id) = [] := by
          rw [List.eq_nil_iff_forall_not_mem]
          intro u hu
          have h1 := List.mem_filter.mp hu
          by_cases hucb : u.cb = CB.heartbeat_cb
          · exact hnohb u h1.1 hucb
          · have hcount := countP_filter_remove s.pending t
              (fun v => decide (v.cb ≠ CB.heartbeat_cb)) htmem hpw
              (decide_eq_true hcbne)
            have hwc2 : s.pending.countP (fun v => decide (v.cb ≠ CB.heartbeat_cb)) ≤ 1 := hwc
            have hzero := List.countP_eq_zero.mp (by omega :
              (s.pending.filter fun u => u.id ≠ t.id).countP
                (fun v => decide (v.cb ≠ CB.heartbeat_cb)) = 0) u hu
            exact hzero (decide_eq_true hucb)
        have hemp2 : (s.pending.filter (fun u => u.id ≠ t.id)).filter
            (fun u => u.id ≠ s.timer_reconnect) = [] := by
          rw [hemp1]
          rfl
        show INV (reconnect_m _ ok)
        cases ok with
        | true =>
          refine INV_of_single_wd _ ⟨s.nextId, t.deadline + 15000, CB.reconnect_cb⟩
            hcl ?_ (by simp) ?_ ?_ ?_ ?_
          · show (s.pending.filter (fun u => u.id ≠ t.id)).filter
                (fun u => u.id ≠ s.timer_reconnect)
              ++ [⟨s.nextId, t.deadline + 15000, CB.reconnect_cb⟩] = _
            rw [hemp2]
            rfl
          · show s.nextId < s.nextId + 1
            omega
          · show s.nextId ≠ s.timer_heartbeat
            omega
          · show s.nextId < s.nextId + 1
            omega
          · show s.timer_heartbeat < s.nextId + 1
            omega
        | false =>
          show INV (on_close_m _)
          refine INV_on_close _ hcl ?_
          refine INV_of_single_wd _ ⟨s.nextId, t.deadline + 100, CB.reconnect_cb⟩
            hcl ?_ (by simp) ?_ ?_ ?_ ?_
          · show (s.pending.filter (fun u => u.id ≠ t.id)).filter
                (fun u => u.id ≠ s.timer_reconnect)
              ++ [⟨s.nextId, t.deadline + 100, CB.reconnect_cb⟩] = _
            rw [hemp2]
            rfl
          · show s.nextId < s.nextId + 1
            omega
          · exact hrh
          · show s.timer_reconnect < s.nextId + 1
            omega
          · show s.timer_heartbeat < s.nextId + 1
            omega

lemma INV_step (s : Conn) (a : Act) (ha : restricted a) (hs : INV s) : INV (step s a) := by
  cases a with
  | fire i ok => exact INV_fire s i ok hs
  | recv rs =>
    obtain ⟨k, hk⟩ := on_decoded_restricted s rs ha
    show INV (on_decoded_m s rs)
    rw [hk]
    exact hs
  | callClose => exact ha.elim
  | sockErr => exact ha.elim
  | sockClose => exact ha.elim

lemma INV_run (acts : List Act) : ∀ s : Conn, (∀ a ∈ acts, restricted a) → INV s →
    INV (run s acts) := by
  induction acts with
  | nil => exact fun s _ hs => hs
  | cons a acts ih =>
    intro s ha hs
    show INV (run (step s a) acts)
    exact ih (step s a) (fun b hb => ha b (List.mem_cons_of_mem _ hb))
      (INV_step s a (ha a (List.mem_cons_self _ _)) hs)

lemma on_close_m_trans_live (s : Conn) :
    (on_close_m s).trans = s.trans ∧ (on_close_m s).live = s.live := by
  unfold on_close_m
  split <;> exact ⟨rfl, rfl⟩

lemma on_close_m_potential (p : Conn) :
    (on_close_m p).trans + liveBit (on_close_m p) ≤ p.trans + liveBit p := by
  have h := on_close_m_trans_live p
  unfold liveBit
  rw [h.1, h.2]

lemma reconnect_m_trans_live (s : Conn) (ok : Bool) :
    (reconnect_m s ok).trans = s.trans + (if s.live then 1 else 0) ∧
    (reconnect_m s ok).live = false := by
  cases ok with
  | true => exact ⟨rfl, rfl⟩
  | false =>
    unfold reconnect_m
    rw [if_neg (by simp)]
    constructor
    · rw [(on_close_m_trans_live _).1]
      rfl
    · rw [(on_close_m_trans_live _).2]

lemma reconnect_m_potential (p : Conn) (ok : Bool) :
    (reconnect_m p ok).trans + liveBit (reconnect_m p ok) ≤ p.trans + liveBit p := by
  have h := reconnect_m_trans_live p ok
  unfold liveBit
  rw [h.1, h.2]
  cases hl : p.live <;> simp [hl]

lemma trans_liveBit_step (s : Conn) (a : Act) (ha : restricted a) :
    (step s a).trans + liveBit (step s a) ≤ s.trans + liveBit s := by
  cases a with
  | fire i ok =>
    cases hfind : s.pending.find? (fun t => t.id = i) with
    | none => simp [step, hfind]
    | some t =>
      by_cases hmin : isMin s t = true
      case neg => simp [step, hfind, hmin]
      case pos =>
        have hst : step s (.fire i ok)
            = runCB { s with pending := s.pending.filter (fun u => u.id ≠ i),
                             now := t.deadline } t.cb ok := by
          simp [step, hfind, hmin]
        rw [hst]
        cases t.cb with
        | heartbeat_cb => exact Nat.le_refl _
        | on_close_cb => exact on_close_m_potential _
        | reconnect_cb => exact reconnect_m_potential _ ok
  | recv rs =>
    obtain ⟨k, hk⟩ := on_decoded_restricted s rs ha
    show (on_decoded_m s rs).trans + liveBit (on_decoded_m s rs) ≤ _
    rw [hk]
    exact Nat.le_refl _
  | callClose => exact ha.elim
  | sockErr => exact ha.elim
  | sockClose => exact ha.elim

lemma trans_liveBit_run (acts : List Act) : ∀ s : Conn, (∀ a ∈ acts, restricted a) →
    (run s acts).trans + liveBit (run s acts) ≤ s.trans + liveBit s := by
  induction acts with
  | nil => exact fun s _ => Nat.le_refl _
  | cons a acts ih =>
    intro s ha
    have h1 := trans_liveBit_step s a (ha a (List.mem_cons_self _ _))
    have h2 := ih (step s a) (fun b hb => ha b (List.mem_cons_of_mem _ hb))
    exact le_trans h2 h1

/-- C2: (1) every heartbeat send rearms the reconnect watchdog to fire
CONNECT_TIMEOUT = 15000 ms later and cancels the previous watchdog;
(2) decoding a welcome sends a heartbeat immediately through the same
path; (3) a pending heartbeat timer that fires runs that same heartbeat
path; (4) decoding a heartbeat reply cancels the pending heartbeat timer
and schedules the next heartbeat HEARTBEAT_INTERVAL = 10000 ms later,
leaving the watchdog untouched; (5) in any window in which no welcome
and no heartbeat reply is decoded and the caller does not close, the
invariant is preserved and at most one reconnect-inducing timer is ever
pending (no duplicate reconnects from overlapping timers); (6) in such a
window the session transitions from live to reconnecting at most once;
and (7) on the canonical post-send state the watchdog fires 15 s later
and the scheduled 100 ms reconnect then performs exactly one transition
to reconnecting. -/
theorem heartbeat_watchdog_protocol :
    (∀ s : Conn, s.timer_reconnect < s.nextId →
      (⟨s.nextId, s.now + 15000, CB.on_close_cb⟩ : Timer) ∈ (heartbeat_m s).pending ∧
      (heartbeat_m s).timer_reconnect = s.nextId ∧
      (∀ u ∈ (heartbeat_m s).pending, u.id ≠ s.timer_reconnect)) ∧
    (∀ s : Conn, s.closed = false →
      on_decoded_m s [TYPE.welcome] = heartbeat_m { s with live := true }) ∧
    (∀ (s : Conn) (t : Timer) (ok : Bool),
      s.pending.find? (fun u => u.id = t.id) = some t → isMin s t = true →
      t.cb = CB.heartbeat_cb →
      step s (.fire t.id ok)
        = heartbeat_m { s with pending := s.pending.filter (fun u => u.id ≠ t.id),
                               now := t.deadline }) ∧
    (∀ s : Conn, s.closed = false → s.timer_heartbeat < s.nextId →
      (⟨s.nextId, s.now + 10000, CB.heartbeat_cb⟩ : Timer)
          ∈ (on_decoded_m s [TYPE.heartbeat]).pending ∧
      (on_decoded_m s [TYPE.heartbeat]).timer_heartbeat = s.nextId ∧
      (∀ u ∈ (on_decoded_m s [TYPE.heartbeat]).pending, u.id ≠ s.timer_heartbeat) ∧
      (on_decoded_m s [TYPE.heartbeat]).timer_reconnect = s.timer_reconnect ∧
      (∀ u ∈ s.pending, u.id ≠ s.timer_heartbeat
        → u ∈ (on_decoded_m s [TYPE.heartbeat]).pending)) ∧
    (∀ (s : Conn) (acts : List Act), INV s → (∀ a ∈ acts, restricted a) →
      INV (run s acts) ∧ wcount (run s acts) ≤ 1) ∧
    (∀ (s : Conn) (acts : List Act), (∀ a ∈ acts, restricted a) →
      (run s acts).trans + liveBit (run s acts) ≤ s.trans + liveBit s) ∧
    (INV s0 ∧
      (run s0 [.fire 2 true, .fire 3 true]).trans = s0.trans + 1 ∧
      (run s0 [.fire 2 true, .fire 3 true]).reconnects = s0.reconnects + 1) := by
  refine ⟨?_, ?_, ?_, ?_, ?_, ?_, ?_⟩
  · intro s h
    have hpend : (heartbeat_m s).pending
        = s.pending.filter (fun u => u.id ≠ s.timer_reconnect)
          ++ [⟨s.nextId, s.now + 15000, CB.on_close_cb⟩] := rfl
    refine ⟨?_, rfl, ?_⟩
    · rw [hpend]
      exact List.mem_append_right _ (List.mem_singleton_self _)
    · intro u hu
      rw [hpend] at hu
      rcases List.mem_append.mp hu with hu | hu
      · simpa using (List.mem_filter.mp hu).2
      · rw [List.mem_singleton.mp hu]
        show s.nextId ≠ s.timer_reconnect
        omega
  · intro s h
    unfold on_decoded_m
    rw [if_neg (by rw [h]; simp)]
    rfl
  · intro s t ok hfind hmin hcb
    simp [step, hfind, hmin, hcb, runCB]
  · intro s hcl hn
    have hred : on_decoded_m s [TYPE.heartbeat] = on_decoded_step s TYPE.heartbeat := by
      unfold on_decoded_m
      rw [if_neg (by rw [hcl]; simp)]
      rfl
    rw [hred]
    have hpend : (on_decoded_step s TYPE.heartbeat).pending
        = s.pending.filter (fun u => u.id ≠ s.timer_heartbeat)
          ++ [⟨s.nextId, s.now + 10000, CB.heartbeat_cb⟩] := rfl
    refine ⟨?_, rfl, ?_, rfl, ?_⟩
    · rw [hpend]
      exact List.mem_append_right _ (List.mem_singleton_self _)
    · intro u hu
      rw [hpend] at hu
      rcases List.mem_append.mp hu with hu | hu
      · simpa using (List.mem_filter.mp hu).2
      · rw [List.mem_singleton.mp hu]
        show s.nextId ≠ s.timer_heartbeat
        omega
    · intro u hu hne
      rw [hpend]
      exact List.mem_append_left _ (List.mem_filter.mpr ⟨hu, by simpa using hne⟩)
  · intro s acts hinv hres
    have h := INV_run acts s hres hinv
    exact ⟨h, h.2.2.2.2.2.2.2.1⟩
  · exact fun s acts hres => trans_liveBit_run acts s hres
  · exact ⟨by decide, by decide, by decide⟩

/-- Witness for heartbeat_watchdog_protocol, instantiated on the concrete
post-send state s0 and the single firing of its watchdog. -/
theorem heartbeat_watchdog_protocol_witness :
    s0.timer_reconnect < s0.nextId ∧ s0.closed = false ∧
    s0.timer_heartbeat < s0.nextId ∧ INV s0 ∧
    (∀ a ∈ [Act.fire 2 true], restricted a) ∧
    ((⟨s0.nextId, s0.now + 15000, CB.on_close_cb⟩ : Timer) ∈ (heartbeat_m s0).pending) ∧
    ((⟨s0.nextId, s0.now + 10000, CB.heartbeat_cb⟩ : Timer)
        ∈ (on_decoded_m s0 [TYPE.heartbeat]).pending) ∧
    (INV (run s0 [Act.fire 2 true]) ∧ wcount (run s0 [Act.fire 2 true]) ≤ 1) ∧
    (run s0 [Act.fire 2 true]).trans + liveBit (run s0 [Act.fire 2 true])
      ≤ s0.trans + liveBit s0 := by
  refine ⟨by decide, by decide, by decide, by decide, by decide, ?_, ?_, ?_, ?_⟩
  · exact (heartbeat_watchdog_protocol.1 s0 (by decide)).1
  · exact ((heartbeat_watchdog_protocol.2.2.2.1) s0 (by decide) (by decide)).1
  · exact (heartbeat_watchdog_protocol.2.2.2.2.1) s0 [Act.fire 2 true] (by decide) (by decide)
  · exact (heartbeat_watchdog_protocol.2.2.2.2.2.1) s0 [Act.fire 2 true] (by decide)

end Blivec
